/-
Verification of the xv6 kernel sources in src/ against the natural-language
specification.  Each section shallowly embeds the C functions a claim is
about; definitions are translated statement by statement from the cited
source files.  Machine unsigned integers (`uint`) that serve as pure
counters are modelled as unbounded naturals; wherever 32-bit wrap-around can
affect a comparison the reduction modulo 2 ^ 32 is kept explicit.
-/
import Mathlib

namespace XV6

/-! ## Pipes (src/pipe.c)

`struct pipe` from src/pipe.c.  The 512-byte ring `data` is modelled as a
function from indices to byte values; `nread` / `nwrite` are the two `uint`
counters.  They are modelled as unbounded naturals: the code only ever
compares `nread == nwrite` and `nwrite == nread + PIPESIZE`, and the proved
invariant `nwrite - nread ≤ PIPESIZE < 2 ^ 32` makes those comparisons agree
with their 32-bit versions. -/

def PIPESIZE : Nat := 512

structure Pipe where
  data : Nat → Nat
  nread : Nat
  nwrite : Nat
  readopen : Bool
  writeopen : Bool

/-- The pipe-initialisation statements of `pipealloc` (src/pipe.c):
`readopen = 1; writeopen = 1; nwrite = 0; nread = 0`.  The freshly
`kalloc`-ed page contents (`junk`) are left untouched. -/
def pipealloc (junk : Nat → Nat) : Pipe :=
  { data := junk, nread := 0, nwrite := 0, readopen := true, writeopen := true }

/-- `pipeclose(p, writable)` from src/pipe.c: clear one open flag, and free
the pipe when both flags are clear.  The returned boolean records whether
`kfree((char*)p)` was executed. -/
def pipeclose (p : Pipe) (writable : Bool) : Pipe × Bool :=
  let p1 := if writable then { p with writeopen := false } else { p with readopen := false }
  if p1.readopen = false ∧ p1.writeopen = false then (p1, true) else (p1, false)

/-- Outcome of one lock-holding burst of `pipewrite`: the calls to
`sleep` inside the full-buffer loop are the only suspension points, so a
burst either returns `-1`, suspends (recorded with the state at the
suspension and the index of the next byte to write), or writes all `n`
bytes and returns `n`. -/
inductive WriteStep where
  | retMinus1 : Pipe → WriteStep
  | sleeps : Pipe → Nat → WriteStep
  | done : Pipe → WriteStep

/-- The body of `pipewrite` (src/pipe.c) from loop index `i`: while the
buffer is full (`nwrite == nread + PIPESIZE`), return `-1` if
`readopen == 0 || killed`, otherwise sleep; else store
`addr[i]` at `data[nwrite++ % PIPESIZE]` and continue. -/
def pipewriteGo (killed : Bool) (addr : Nat → Nat) (n : Nat) : Nat → Pipe → WriteStep
  | i, p =>
    if _h : i < n then
      if p.nwrite = p.nread + PIPESIZE then
        if p.readopen = false ∨ killed = true then WriteStep.retMinus1 p
        else WriteStep.sleeps p i
      else
        pipewriteGo killed addr n (i + 1)
          { p with
            data := Function.update p.data (p.nwrite % PIPESIZE) (addr i),
            nwrite := p.nwrite + 1 }
    else WriteStep.done p
termination_by i _ => n - i

def pipewrite (p : Pipe) (killed : Bool) (addr : Nat → Nat) (n : Nat) : WriteStep :=
  pipewriteGo killed addr n 0 p

/-- Outcome of `piperead`: block at the empty-buffer loop, return `-1`
when killed there, or return the byte count together with the bytes copied
out (the successive `addr[i]` assignments) and the final pipe state. -/
inductive ReadStep where
  | retMinus1 : ReadStep
  | sleeps : ReadStep
  | ret : Nat → Pipe → List Nat → ReadStep

/-- The copy loop of `piperead` (src/pipe.c): for `i` from 0 while `i < n`,
break when `nread == nwrite`, else copy `data[nread++ % PIPESIZE]` out. -/
def pipereadGo (n : Nat) : Nat → Pipe → List Nat → Nat × Pipe × List Nat
  | i, p, acc =>
    if _h : i < n then
      if p.nread = p.nwrite then (i, p, acc)
      else
        pipereadGo n (i + 1) { p with nread := p.nread + 1 }
          (acc ++ [p.data (p.nread % PIPESIZE)])
    else (i, p, acc)
termination_by i _ _ => n - i

/-- `piperead(p, addr, n)` from src/pipe.c: while the buffer is empty and
`writeopen` holds, return `-1` if killed, else sleep (one burst ends
there); once past the loop, run the copy loop and return its count. -/
def piperead (p : Pipe) (killed : Bool) (n : Nat) : ReadStep :=
  if p.nread = p.nwrite ∧ p.writeopen = true then
    if killed then ReadStep.retMinus1 else ReadStep.sleeps
  else
    let r := pipereadGo n 0 p []
    ReadStep.ret r.1 r.2.1 r.2.2

/-- The counter invariant from the spec: `0 ≤ nwrite − nread ≤ PIPESIZE`,
stated over naturals as `nread ≤ nwrite ∧ nwrite ≤ nread + PIPESIZE`. -/
def pipeInv (p : Pipe) : Prop :=
  p.nread ≤ p.nwrite ∧ p.nwrite ≤ p.nread + PIPESIZE

instance (p : Pipe) : Decidable (pipeInv p) := by
  unfold pipeInv; infer_instance

/-- The pipe state carried by a `pipewrite` outcome. -/
def WriteStep.pipeOf : WriteStep → Pipe
  | retMinus1 p => p
  | sleeps p _ => p
  | done p => p

/-- Each burst of the `pipewrite` loop keeps the counter invariant: a byte
is stored only when `nwrite ≠ nread + PIPESIZE`. -/
lemma pipewriteGo_inv (killed : Bool) (addr : Nat → Nat) (n : Nat) :
    ∀ k i p, n - i ≤ k → pipeInv p →
      pipeInv (WriteStep.pipeOf (pipewriteGo killed addr n i p)) := by
  intro k
  induction k with
  | zero =>
    intro i p hk hp
    rw [pipewriteGo]
    have hni : ¬ i < n := by omega
    simp only [hni, dite_false]
    exact hp
  | succ k ih =>
    intro i p hk hp
    rw [pipewriteGo]
    by_cases hni : i < n
    · simp only [hni, dite_true]
      by_cases hfull : p.nwrite = p.nread + PIPESIZE
      · simp only [hfull, if_true]
        by_cases hro : p.readopen = false ∨ killed = true
        · simp only [hro, if_true]
          exact hp
        · simp only [hro, if_false]
          exact hp
      · simp only [hfull, if_false]
        rcases hp with ⟨h1, h2⟩
        refine ih (i + 1) _ (by omega) ?_
        constructor
        · show p.nread ≤ p.nwrite + 1
          omega
        · show p.nwrite + 1 ≤ p.nread + PIPESIZE
          omega
    · simp only [hni, dite_false]
      exact hp

/-- The pipe state after a `piperead` outcome (the state is unchanged when
the call returns `-1` or suspends at the empty-buffer loop). -/
def ReadStep.pipeOf (p : Pipe) : ReadStep → Pipe
  | retMinus1 => p
  | sleeps => p
  | ret _ q _ => q

/-- The `piperead` copy loop keeps the counter invariant: a byte is
consumed only when `nread ≠ nwrite`. -/
lemma pipereadGo_inv (n : Nat) :
    ∀ k i p acc, n - i ≤ k → pipeInv p →
      pipeInv (pipereadGo n i p acc).2.1 := by
  intro k
  induction k with
  | zero =>
    intro i p acc hk hp
    rw [pipereadGo]
    have hni : ¬ i < n := by omega
    simp only [hni, dite_false]
    exact hp
  | succ k ih =>
    intro i p acc hk hp
    rw [pipereadGo]
    by_cases hni : i < n
    · simp only [hni, dite_true]
      by_cases hempty : p.nread = p.nwrite
      · simp only [hempty, if_true]
        exact hp
      · simp only [hempty, if_false]
        rcases hp with ⟨h1, h2⟩
        refine ih (i + 1) _ _ (by omega) ?_
        constructor
        · show p.nread + 1 ≤ p.nwrite
          omega
        · show p.nwrite ≤ p.nread + 1 + PIPESIZE
          omega
    · simp only [hni, dite_false]
      exact hp

/-- When exactly `k` bytes are buffered and at least `k` more loop
iterations remain, the `piperead` copy loop drains all `k` bytes in FIFO
order and stops with count `i + k`. -/
lemma pipereadGo_drain (n : Nat) :
    ∀ k i (d : Nat → Nat) (nr nw : Nat) (ro wo : Bool) acc,
      nw = nr + k → i + k ≤ n →
      pipereadGo n i ⟨d, nr, nw, ro, wo⟩ acc =
        (i + k, ⟨d, nr + k, nw, ro, wo⟩,
         acc ++ (List.range k).map (fun j => d ((nr + j) % PIPESIZE))) := by
  intro k
  induction k with
  | zero =>
    intro i d nr nw ro wo acc hk hn
    subst hk
    rw [pipereadGo]
    by_cases hi : i < n
    · simp [hi]
    · simp [hi]
  | succ k ih =>
    intro i d nr nw ro wo acc hk hn
    subst hk
    rw [pipereadGo]
    have hi : i < n := by omega
    have hempty : ¬ (Pipe.mk d nr (nr + (k + 1)) ro wo).nread =
        (Pipe.mk d nr (nr + (k + 1)) ro wo).nwrite := by
      show ¬ nr = nr + (k + 1)
      omega
    simp only [hi, dite_true, hempty, if_false]
    have hstep := ih (i + 1) d (nr + 1) (nr + (k + 1)) ro wo
      (acc ++ [d (nr % PIPESIZE)]) (by omega) (by omega)
    rw [hstep, (by omega : i + 1 + k = i + (k + 1)),
      (by omega : nr + 1 + k = nr + (k + 1))]
    congr 1
    congr 1
    show acc ++ [d (nr % PIPESIZE)] ++
        (List.range k).map (fun j => d ((nr + 1 + j) % PIPESIZE)) =
      acc ++ (List.range (k + 1)).map (fun j => d ((nr + j) % PIPESIZE))
    have hmap : (List.range k).map (fun j => d ((nr + 1 + j) % PIPESIZE)) =
        (List.range k).map ((fun j => d ((nr + j) % PIPESIZE)) ∘ Nat.succ) := by
      apply List.map_congr_left
      intro j _hj
      show d ((nr + 1 + j) % PIPESIZE) = d ((nr + (j + 1)) % PIPESIZE)
      have harith : nr + 1 + j = nr + (j + 1) := by omega
      rw [harith]
    rw [List.append_assoc, List.singleton_append, List.range_succ_eq_map,
      List.map_cons, List.map_map, hmap]
    simp

/-- C4: after every pipe operation (`pipealloc`, `pipewrite`, `piperead`,
`pipeclose`) the counters satisfy `0 ≤ nwrite − nread ≤ PIPESIZE` (stated
over naturals), and `pipeclose` frees the pipe's frame exactly when both
`readopen` and `writeopen` are clear. -/
theorem pipe_ops_preserve_inv (junk addr : Nat → Nat) (p : Pipe) (hp : pipeInv p)
    (killed w : Bool) (n : Nat) :
    pipeInv (pipealloc junk)
  ∧ pipeInv (WriteStep.pipeOf (pipewrite p killed addr n))
  ∧ pipeInv (ReadStep.pipeOf p (piperead p killed n))
  ∧ pipeInv (pipeclose p w).1
  ∧ ((pipeclose p w).2 = true ↔
      (pipeclose p w).1.readopen = false ∧ (pipeclose p w).1.writeopen = false) := by
  refine ⟨?_, ?_, ?_, ?_, ?_⟩
  · constructor
    · show (0 : Nat) ≤ 0
      omega
    · show (0 : Nat) ≤ 0 + PIPESIZE
      omega
  · exact pipewriteGo_inv killed addr n n 0 p (by omega) hp
  · unfold piperead
    by_cases hc : p.nread = p.nwrite ∧ p.writeopen = true
    · rw [if_pos hc]
      cases killed
      · exact hp
      · exact hp
    · rw [if_neg hc]
      exact pipereadGo_inv n n 0 p [] (by omega) hp
  · obtain ⟨d, nr, nw, ro, wo⟩ := p
    cases w <;> cases ro <;> cases wo <;> simp [pipeclose] <;> exact hp
  · obtain ⟨d, nr, nw, ro, wo⟩ := p
    cases w <;> cases ro <;> cases wo <;> simp [pipeclose]

/-- Witness for C4 at a freshly allocated pipe. -/
theorem pipe_ops_preserve_inv_witness :
    pipeInv (WriteStep.pipeOf (pipewrite (pipealloc (fun _ => 0)) false (fun _ => 7) 3)) :=
  (pipe_ops_preserve_inv (fun _ => 0) (fun _ => 7) (pipealloc (fun _ => 0))
    (by constructor <;> simp [pipealloc, PIPESIZE]) false false 3).2.1

/-- C5: for a read of `n > 0` bytes by a non-killed process, `piperead`
blocks (sleeps) while the buffer is empty and `writeopen` is set, and once
`writeopen` is clear and the buffer is empty it returns 0 without
blocking. -/
theorem piperead_blocks_then_eof (p : Pipe) (n : Nat) (hn : 0 < n) :
    (p.nread = p.nwrite → p.writeopen = true →
        piperead p false n = ReadStep.sleeps)
  ∧ (p.nread = p.nwrite → p.writeopen = false →
        piperead p false n = ReadStep.ret 0 p []) := by
  obtain ⟨d, nr, nw, ro, wo⟩ := p
  constructor
  · intro he hw
    unfold piperead
    rw [if_pos ⟨he, hw⟩]
    rfl
  · intro he hw
    have he2 : nr = nw := he
    have hw2 : wo = false := hw
    subst he2
    subst hw2
    unfold piperead
    rw [if_neg (by simp)]
    have hgo := pipereadGo_drain n 0 0 d nr nr ro false [] (by omega) (by omega)
    simp only [hgo]
    rfl

/-- Witness for C5 on a concrete empty pipe: the read blocks while the
write end is open and returns 0 once it is closed. -/
theorem piperead_blocks_then_eof_witness :
    piperead ⟨fun _ => 0, 5, 5, true, true⟩ false 4 = ReadStep.sleeps
  ∧ piperead ⟨fun _ => 0, 5, 5, true, false⟩ false 4 =
      ReadStep.ret 0 ⟨fun _ => 0, 5, 5, true, false⟩ [] :=
  ⟨(piperead_blocks_then_eof ⟨fun _ => 0, 5, 5, true, true⟩ 4 (by omega)).1 rfl rfl,
   (piperead_blocks_then_eof ⟨fun _ => 0, 5, 5, true, false⟩ 4 (by omega)).2 rfl rfl⟩

/-- C9: partial reads: when the pipe holds `k` bytes, `1 ≤ k < n`, and the
write end is open, `piperead` returns `k` after copying exactly the `k`
buffered bytes in FIFO order instead of waiting for `n` bytes. -/
theorem piperead_partial (d : Nat → Nat) (nr : Nat) (ro killed : Bool)
    (n k : Nat) (h1 : 1 ≤ k) (hkn : k < n) :
    piperead ⟨d, nr, nr + k, ro, true⟩ killed n =
      ReadStep.ret k ⟨d, nr + k, nr + k, ro, true⟩
        ((List.range k).map (fun j => d ((nr + j) % PIPESIZE))) := by
  unfold piperead
  rw [if_neg (by simp; omega)]
  have hgo := pipereadGo_drain n k 0 d nr (nr + k) ro true [] rfl (by omega)
  simp only [hgo]
  simp

/-- Witness for C9: a pipe holding the two bytes 40, 41 answers a 3-byte
read with exactly those two bytes. -/
theorem piperead_partial_witness :
    piperead ⟨fun j => 40 + j, 0, 2, true, true⟩ false 3 =
      ReadStep.ret 2 ⟨fun j => 40 + j, 2, 2, true, true⟩
        ((List.range 2).map (fun j => (fun i => 40 + i) ((0 + j) % PIPESIZE))) :=
  piperead_partial (fun j => 40 + j) 0 true false 3 2 (by omega) (by omega)

/-! ## Physical page allocator (src/kalloc.c)

`kmem.freelist` is the intrusive singly-linked list of free 4096-byte
pages; it is modelled as the list of page addresses, first element the
head.  `V2P(v)` is `v - KERNBASE` (memlayout.h is not under src/; the spec
describes the kernel region `[KERNBASE, ∞)` as identity-mapped to physical
memory, so `V2P` subtracts `KERNBASE`); `end`, `KERNBASE` and `PHYSTOP`
are parameters.  The `memset(v, 1, PGSIZE)` junk fill touches only page
contents, which the free list does not track.  The `use_lock`
acquire/release pairs guard nothing in a sequential execution. -/

def PGSIZE : Nat := 4096

structure Kmem where
  freelist : List Nat
deriving DecidableEq

/-- `kfree(v)` from src/kalloc.c: panic unless `v` is page-aligned,
`end ≤ v`, and `V2P(v) < PHYSTOP`; otherwise push `v` on the head of
`kmem.freelist` (`r->next = kmem.freelist; kmem.freelist = r`).  `none`
models the panic. -/
def kfree (endAddr KERNBASE PHYSTOP : Nat) (v : Nat) (k : Kmem) : Option Kmem :=
  if v % PGSIZE ≠ 0 ∨ v < endAddr ∨ v - KERNBASE ≥ PHYSTOP then none
  else some ⟨v :: k.freelist⟩

/-- `kalloc()` from src/kalloc.c: pop the head of the free list; return 0
(the null pointer) when the list is empty. -/
def kalloc (k : Kmem) : Nat × Kmem :=
  match k.freelist with
  | [] => (0, k)
  | r :: rest => (r, ⟨rest⟩)

/-- C8: the allocator is LIFO: an accepted `kfree(p)` pushes `p` on the
head of the free list and the next `kalloc` returns exactly `p`, restoring
the previous free list; `kalloc` on an empty free list returns 0 rather
than panicking. -/
theorem kalloc_lifo (endAddr KERNBASE PHYSTOP v : Nat) (k k1 : Kmem)
    (h : kfree endAddr KERNBASE PHYSTOP v k = some k1) :
    k1.freelist = v :: k.freelist
  ∧ kalloc k1 = (v, k)
  ∧ kalloc ⟨[]⟩ = (0, ⟨[]⟩) := by
  unfold kfree at h
  by_cases hc : v % PGSIZE ≠ 0 ∨ v < endAddr ∨ v - KERNBASE ≥ PHYSTOP
  · rw [if_pos hc] at h
    exact absurd h (by simp)
  · rw [if_neg hc] at h
    have hk1 : k1 = ⟨v :: k.freelist⟩ := (Option.some.inj h).symm
    subst hk1
    exact ⟨rfl, rfl, rfl⟩

/-- Witness for C8: freeing page 4096 (with `end = 4096`, `KERNBASE = 0`,
`PHYSTOP = 16384`) and allocating again returns page 4096. -/
theorem kalloc_lifo_witness :
    Kmem.freelist ⟨[4096]⟩ = 4096 :: Kmem.freelist ⟨[]⟩
  ∧ kalloc ⟨[4096]⟩ = (4096, ⟨[]⟩)
  ∧ kalloc ⟨[]⟩ = (0, ⟨[]⟩) :=
  kalloc_lifo 4096 0 16384 4096 ⟨[]⟩ ⟨[4096]⟩ (by rfl)

/-! ## File-descriptor allocation (src/sysfile.c)

A process open-file table (`proc->ofile`, `NOFILE` entries) is modelled as
a list of optional file references; `none` is a free slot (`ofile[fd] ==
0`). -/

/-- `fdalloc(f)` from src/sysfile.c: scan `fd = 0, 1, …` over the table;
install `f` in the first free slot and return its index; with no free slot
return -1 (`none`). -/
def fdalloc (f : Nat) : List (Option Nat) → Option (Nat × List (Option Nat))
  | [] => none
  | none :: rest => some (0, some f :: rest)
  | some g :: rest =>
    match fdalloc f rest with
    | none => none
    | some (fd, l) => some (fd + 1, some g :: l)

/-- The fd-allocation portion of `sys_pipe` (src/sysfile.c): after
`pipealloc` has produced the read file `rf` and write file `wf`, allocate
`fd0` for `rf` and then `fd1` for `wf`; if either allocation fails the
syscall returns -1 (`none`; the C also rolls back `ofile[fd0]` and closes
both files on that path). -/
def sys_pipe_fds (rf wf : Nat) (tbl : List (Option Nat)) :
    Option (Nat × Nat × List (Option Nat)) :=
  match fdalloc rf tbl with
  | none => none
  | some (fd0, t1) =>
    match fdalloc wf t1 with
    | none => none
    | some (fd1, t2) => some (fd0, fd1, t2)

/-- `i` is the smallest index of a free slot of `tbl`. -/
def firstFree (tbl : List (Option Nat)) (i : Nat) : Prop :=
  tbl.get? i = some none ∧ ∀ j < i, tbl.get? j ≠ some none

instance (tbl : List (Option Nat)) (i : Nat) : Decidable (firstFree tbl i) := by
  unfold firstFree
  infer_instance

/-- `fdalloc` fails exactly on a full table. -/
lemma fdalloc_full (f : Nat) :
    ∀ tbl : List (Option Nat), (∀ s ∈ tbl, s ≠ none) → fdalloc f tbl = none := by
  intro tbl
  induction tbl with
  | nil => intro _; rfl
  | cons s rest ih =>
    intro hfull
    match s with
    | none => exact absurd rfl (hfull none (by simp))
    | some g =>
      have hrest := ih (fun x hx => hfull x (by simp [hx]))
      unfold fdalloc
      rw [hrest]

/-- `fdalloc` installs in the smallest-index free slot and returns it. -/
lemma fdalloc_firstFree (f : Nat) :
    ∀ (tbl : List (Option Nat)) (i : Nat), firstFree tbl i →
      fdalloc f tbl = some (i, tbl.set i (some f)) := by
  intro tbl
  induction tbl with
  | nil =>
    intro i hi
    exact absurd hi.1 (by simp)
  | cons s rest ih =>
    intro i hi
    match i with
    | 0 =>
      have hs : s = none := by
        have := hi.1
        simpa using this
      subst hs
      rfl
    | i + 1 =>
      have hs : s ≠ none := by
        intro hcon
        exact hi.2 0 (by omega) (by simp [hcon])
      match s, hs with
      | some g, _ =>
        have hrest : firstFree rest i := by
          constructor
          · simpa using hi.1
          · intro j hj
            have := hi.2 (j + 1) (by omega)
            simpa using this
        unfold fdalloc
        rw [ih i hrest]
        simp

/-- C10: fd allocation is deterministic lowest-first: with at least one
free slot `fdalloc` installs the file in the smallest-index free slot and
returns that index (hence `sys_pipe` hands out the two successive lowest
free descriptors); with no free slot it returns -1. -/
theorem fdalloc_lowest_first (f rf wf : Nat) (tbl : List (Option Nat)) :
    ((∀ s ∈ tbl, s ≠ none) → fdalloc f tbl = none)
  ∧ (∀ i, firstFree tbl i → fdalloc f tbl = some (i, tbl.set i (some f)))
  ∧ (∀ i i2, firstFree tbl i → firstFree (tbl.set i (some rf)) i2 →
      sys_pipe_fds rf wf tbl =
        some (i, i2, (tbl.set i (some rf)).set i2 (some wf))) := by
  refine ⟨fdalloc_full f tbl, fdalloc_firstFree f tbl, ?_⟩
  intro i i2 hi hi2
  unfold sys_pipe_fds
  rw [fdalloc_firstFree rf tbl i hi]
  simp only []
  rw [fdalloc_firstFree wf _ i2 hi2]

/-- Witness for C10 on the table `[some 1, none, none]`: slot 1 is handed
out first, then slot 2. -/
theorem fdalloc_lowest_first_witness :
    fdalloc 5 [some 1, none, none] = some (1, [some 1, some 5, none])
  ∧ sys_pipe_fds 7 8 [some 1, none, none] = some (1, 2, [some 1, some 7, some 8]) := by
  have h := fdalloc_lowest_first 5 7 8 [some 1, none, none]
  exact ⟨h.2.1 1 (by decide), h.2.2 1 2 (by decide) (by decide)⟩

/-! ## Syscall argument fetch (src/syscall.c)

The current process is modelled by its user size `sz` (`curproc->sz`), its
saved user stack pointer `esp` (`curproc->tf->esp`) and a memory `mem`
giving the `int` word stored at each byte address (`*(int*)(addr)`).
`uint` additions that can wrap are reduced modulo `2 ^ 32`; the C cast
`(uint)i` of an `int` is `i` modulo `2 ^ 32`. -/

def UINT_MOD : Nat := 2 ^ 32

/-- The C cast `(uint)i` of an `int` value. -/
def toUint (i : Int) : Nat := (i % (UINT_MOD : Int)).toNat

structure UProc where
  sz : Nat
  esp : Nat
  mem : Nat → Int

/-- `fetchint(addr, ip)` from src/syscall.c: fail unless
`addr < sz ∧ addr + 4 ≤ sz`, else read the word at `addr`. -/
def fetchint (pr : UProc) (addr : Nat) : Option Int :=
  if addr ≥ pr.sz ∨ (addr + 4) % UINT_MOD > pr.sz then none
  else some (pr.mem addr)

/-- `argint(n, ip)` from src/syscall.c: fetch the word at
`esp + 4 + 4*n`. -/
def argint (pr : UProc) (n : Nat) : Option Int :=
  fetchint pr ((pr.esp + 4 + 4 * n) % UINT_MOD)

/-- `argptr(n, pp, size)` from src/syscall.c: fetch the pointer word with
`argint`; fail if `size < 0`, `(uint)i ≥ sz`, or `(uint)i + size > sz`;
otherwise return the pointer. -/
def argptr (pr : UProc) (n : Nat) (size : Int) : Option Nat :=
  (argint pr n).bind (fun i =>
    if size < 0 ∨ toUint i ≥ pr.sz ∨ (toUint i + size.toNat) % UINT_MOD > pr.sz then none
    else some (toUint i))

lemma toUint_lt (i : Int) : toUint i < UINT_MOD := by
  unfold toUint
  have h1 : 0 ≤ i % (UINT_MOD : Int) := Int.emod_nonneg i (by unfold UINT_MOD; norm_num)
  have h2 : i % (UINT_MOD : Int) < (UINT_MOD : Int) :=
    Int.emod_lt_of_pos i (by unfold UINT_MOD; norm_num)
  omega

/-- C6: `argptr` returns a pointer only when `size ≥ 0` and the whole range
`[p, p + size)` lies inside `[0, sz)`; when the fetch of the pointer word
fails, or the fetched pointer fails those bounds, it returns -1 (`none`).
The hypotheses are the kernel-maintained bounds: the user size never
exceeds `KERNBASE = 2 ^ 31` and `size` is a C `int`. -/
theorem argptr_validates (pr : UProc) (n : Nat) (size : Int)
    (hsz : pr.sz ≤ 2 ^ 31) (hsize : size < 2 ^ 31) :
    (∀ p, argptr pr n size = some p →
        0 ≤ size ∧ ∀ a, p ≤ a → a < p + size.toNat → a < pr.sz)
  ∧ (argint pr n = none → argptr pr n size = none)
  ∧ (∀ i, argint pr n = some i →
      ¬ (0 ≤ size ∧ ∀ a, toUint i ≤ a → a < toUint i + size.toNat → a < pr.sz) →
      argptr pr n size = none) := by
  have hszn : size.toNat < 2 ^ 31 := by omega
  refine ⟨?_, ?_, ?_⟩
  · intro p hp
    unfold argptr at hp
    match hai : argint pr n with
    | none =>
      rw [hai, Option.none_bind] at hp
      exact absurd hp (by simp)
    | some i =>
      rw [hai, Option.some_bind] at hp
      by_cases hc : size < 0 ∨ toUint i ≥ pr.sz ∨
          (toUint i + size.toNat) % UINT_MOD > pr.sz
      · rw [if_pos hc] at hp
        exact absurd hp (by simp)
      · rw [if_neg hc] at hp
        push_neg at hc
        obtain ⟨hs0, hlt, hmod⟩ := hc
        have hpi : p = toUint i := by
          have := Option.some.inj hp
          omega
        subst hpi
        have hsum : toUint i + size.toNat < UINT_MOD := by
          unfold UINT_MOD
          omega
        rw [Nat.mod_eq_of_lt hsum] at hmod
        exact ⟨hs0, fun a ha1 ha2 => by omega⟩
  · intro hnone
    unfold argptr
    rw [hnone, Option.none_bind]
  · intro i hai hbad
    unfold argptr
    rw [hai, Option.some_bind]
    by_cases hneg : size < 0
    · rw [if_pos (Or.inl hneg)]
    · push_neg at hneg
      by_cases hge : toUint i ≥ pr.sz
      · rw [if_pos (Or.inr (Or.inl hge))]
      · push_neg at hge
        push_neg at hbad
        obtain ⟨a, ha1, ha2, ha3⟩ := hbad hneg
        have hsum : toUint i + size.toNat < UINT_MOD := by
          unfold UINT_MOD
          omega
        have hover : (toUint i + size.toNat) % UINT_MOD > pr.sz := by
          rw [Nat.mod_eq_of_lt hsum]
          omega
        rw [if_pos (Or.inr (Or.inr hover))]

/-- Witness for C6: with `sz = 64`, `esp = 0` and the pointer word 8 on the
user stack, `argptr(0, &p, 4)` succeeds and the 4-byte range at 8 is inside
the user space. -/
theorem argptr_validates_witness :
    argptr ⟨64, 0, fun _ => 8⟩ 0 4 = some 8
  ∧ ((0 : Int) ≤ 4 ∧ ∀ a, 8 ≤ a → a < 8 + (4 : Int).toNat → a < 64) := by
  have heval : argptr ⟨64, 0, fun _ => 8⟩ 0 4 = some 8 := by decide
  have h := (argptr_validates ⟨64, 0, fun _ => 8⟩ 0 4 (by norm_num) (by norm_num)).1
    8 heval
  exact ⟨heval, h⟩

/-! ## Log (src/log.c)

`struct log` from src/log.c (the spinlock and the in-memory header's block
array are not needed by the properties below; `lh.n` is `lhn`).  Two
functions in src/log.c lost statements to injected block comments and are
embedded exactly as the code now stands:

* in `begin_op`, the branch line `} else if(log.lh.n +
  (log.outstanding+1)*MAXOPBLOCKS > LOGSIZE){` is absent — a block comment
  stands where it was, leaving `if(log.committing){ sleep; sleep; } else {
  log.outstanding += 1; release; break; }` — so no log-space test is
  performed before admission;
* in `end_op`, the statements `log.outstanding -= 1;` and
  `if(log.committing)` are absent — a block comment stands where they
  were — leaving `acquire(&log.lock); panic("log.committing");` so
  `end_op` panics unconditionally and never reaches the decrement, the
  `commit()` call, or the release. -/

structure LogState where
  start : Nat
  size : Nat
  outstanding : Int
  committing : Bool
  dev : Nat
  lhn : Nat
deriving DecidableEq

inductive BeginOpStep where
  | sleeps : BeginOpStep
  | proceeds : LogState → BeginOpStep
deriving DecidableEq

/-- One iteration of the `while(1)` loop of `begin_op` (src/log.c) as the
code stands: if `committing`, sleep (the loop re-runs after wakeup);
otherwise `log.outstanding += 1`, release the lock and return. -/
def begin_op (st : LogState) : BeginOpStep :=
  if st.committing then BeginOpStep.sleeps
  else BeginOpStep.proceeds { st with outstanding := st.outstanding + 1 }

/-- The admission rule claimed by the specification for `begin_op`: wait
while `committing` is true or `(outstanding+1) * MAXOPBLOCKS > LOGSIZE`. -/
def specBeginOpWaits (MAXOPBLOCKS LOGSIZE : Nat) (st : LogState) : Prop :=
  st.committing = true ∨ (st.outstanding + 1) * (MAXOPBLOCKS : Int) > (LOGSIZE : Int)

instance (mb ls : Nat) (st : LogState) : Decidable (specBeginOpWaits mb ls st) := by
  unfold specBeginOpWaits
  infer_instance

/-- A log state in which the claimed admission rule requires waiting:
`committing` is false and `outstanding` already equals `LOGSIZE`. -/
def beginOpBugState (LOGSIZE : Nat) : LogState :=
  ⟨2, 30, (LOGSIZE : Int), false, 1, 0⟩

/-- C1 (counterexample to the admission rule): for every positive
`MAXOPBLOCKS`, in the state with `committing = false` and `outstanding =
LOGSIZE` the claimed rule says `begin_op` must wait, yet the code admits
the caller at once and only increments `outstanding`: src/log.c contains
no log-space test. -/
theorem begin_op_ignores_log_space (MAXOPBLOCKS LOGSIZE : Nat)
    (hmb : 1 ≤ MAXOPBLOCKS) :
    specBeginOpWaits MAXOPBLOCKS LOGSIZE (beginOpBugState LOGSIZE)
  ∧ begin_op (beginOpBugState LOGSIZE) =
      BeginOpStep.proceeds
        { beginOpBugState LOGSIZE with outstanding := (LOGSIZE : Int) + 1 } := by
  constructor
  · refine Or.inr ?_
    show ((LOGSIZE : Int) + 1) * (MAXOPBLOCKS : Int) > (LOGSIZE : Int)
    have h0 : (0 : Int) ≤ (LOGSIZE : Int) := Int.ofNat_nonneg _
    have h1 : (1 : Int) ≤ (MAXOPBLOCKS : Int) := by exact_mod_cast hmb
    nlinarith
  · rfl

/-- Witness for C1 at the standard constants `MAXOPBLOCKS = 10`,
`LOGSIZE = 30`. -/
theorem begin_op_ignores_log_space_witness :
    specBeginOpWaits 10 30 (beginOpBugState 30)
  ∧ begin_op (beginOpBugState 30) =
      BeginOpStep.proceeds
        { beginOpBugState 30 with outstanding := (30 : Int) + 1 } :=
  begin_op_ignores_log_space 10 30 (by omega)

inductive EndOpStep where
  | panics : String → EndOpStep
  | returns : LogState → EndOpStep
deriving DecidableEq

/-- `end_op` from src/log.c as the code stands: after `acquire(&log.lock)`
the first statement is `panic("log.committing");`, executed
unconditionally; `panic` does not return, so the rest of the function
(including the `commit()` call) is dead code. -/
def end_op (st : LogState) : EndOpStep :=
  EndOpStep.panics "log.committing"

/-- `commit()` from src/log.c (this function itself is intact): when
`lh.n > 0`, write the log blocks, write the header (the commit point),
install, clear `n`, write the header again.  Only the effect on `lh.n` is
state in this model; the four steps are recorded as the returned list of
step names in execution order. -/
def commit (st : LogState) : LogState × List String :=
  if st.lhn > 0 then
    ({ st with lhn := 0 },
     ["write_log", "write_head", "install_trans", "write_head"])
  else (st, [])

/-- C2 (divergence): `end_op` panics on every input and never returns,
so no call decrements `outstanding` or reaches `commit`. -/
theorem end_op_always_panics (st : LogState) :
    end_op st = EndOpStep.panics "log.committing"
  ∧ (∀ st2, end_op st ≠ EndOpStep.returns st2) := by
  refine ⟨rfl, ?_⟩
  intro st2 h
  cases h

/-! ## Processes (src/proc.c)

`struct proc` restricted to the fields the fork/exit/wait claims concern.
The process table is a list indexed by slot number; `parent` is a slot
index (`none` models a null `struct proc*`, the boot value of the field).

Several statements of src/proc.c lost to injected block comments shape the
embedding below:

* in `allocproc`, the lines `p->state = EMBRYO; p->pid = nextpid++;` (and
  the `release`) are absent, so a freshly allocated slot keeps its old
  `state`/`pid` values until `fork` assigns `RUNNABLE`;
* in `fork`, the lines `np->sz = curproc->sz; np->parent = curproc;` (and
  the closing brace of the copyuvm-failure branch) are absent, so the
  child's `parent` field keeps its boot value and `sz` is never copied;
* in `exit`, the lines `begin_op(); iput(curproc->cwd); end_op();` are
  absent (only `curproc->cwd = 0;` remains);
* in `wait`, the lines `p->kstack = 0; freevm(p->pgdir);` are absent from
  the zombie-reclaim branch, so only the kernel stack page is `kfree`d and
  the child's page tables and frames are never freed. -/

inductive PState where
  | UNUSED
  | EMBRYO
  | SLEEPING
  | RUNNABLE
  | RUNNING
  | ZOMBIE
deriving DecidableEq

structure Proc where
  state : PState
  pid : Nat
  parent : Option Nat
  killed : Bool
  kstack : Option Nat
  pgdir : Option Nat
  sz : Nat
  name : String
deriving DecidableEq

/-- The effect of a successful `fork` (src/proc.c) on the process table,
as the code stands: `allocproc` finds the UNUSED slot `childIdx` and
allocates its kernel stack; `fork` installs the copied page directory,
copies the name, reads `pid = np->pid` (stale, never assigned) and sets
`np->state = RUNNABLE`.  No statement assigns `np->parent`, `np->sz` or
`np->pid`.  Returns the value `fork` returns and the new table. -/
def fork_mangled (tbl : List Proc) (parentIdx childIdx : Nat)
    (kstackPage pgdirPage : Nat) : Nat × List Proc :=
  match tbl.get? childIdx, tbl.get? parentIdx with
  | some np, some cur =>
    let np2 := { np with
      kstack := some kstackPage,
      pgdir := some pgdirPage,
      name := cur.name,
      state := PState.RUNNABLE }
    (np2.pid, tbl.set childIdx np2)
  | _, _ => (0, tbl)

/-- The effect of `exit` (src/proc.c) on the process table, as the code
stands: clear `cwd` (not modelled; the `iput` is absent anyway), reparent
every child of `curIdx` to `initIdx`, set `curproc->state = ZOMBIE`. -/
def exit_mangled (tbl : List Proc) (curIdx initIdx : Nat) : List Proc :=
  let tbl2 := tbl.map (fun p =>
    if p.parent = some curIdx then { p with parent := some initIdx } else p)
  match tbl2.get? curIdx with
  | some cur => tbl2.set curIdx { cur with state := PState.ZOMBIE }
  | none => tbl2

/-- Outcome of one pass of the `wait` loop: return a value together with
the table and the list of pages released with `kfree` during the call, or
sleep on the parent. -/
inductive WaitStep where
  | ret : Int → List Proc → List Nat → WaitStep
  | sleeps : WaitStep
deriving DecidableEq

/-- One pass of the scan loop of `wait` (src/proc.c), as the code stands:
find the first ZOMBIE child; if found, `kfree(p->kstack)`, zero `pid`,
`parent`, `name`, `killed`, set the slot UNUSED and return the pid (the
statements `p->kstack = 0;` and `freevm(p->pgdir);` are absent, so the
`kstack` and `pgdir` fields are left as they were and no user page is
freed); with no children or a killed caller return -1; otherwise sleep. -/
def wait_mangled (tbl : List Proc) (curIdx : Nat) (curKilled : Bool) : WaitStep :=
  let havekids := tbl.any (fun p => p.parent = some curIdx)
  match tbl.findIdx? (fun p =>
      decide (p.parent = some curIdx ∧ p.state = PState.ZOMBIE)) with
  | some i =>
    match tbl.get? i with
    | some p =>
      WaitStep.ret (Int.ofNat p.pid)
        (tbl.set i
          { p with
            pid := 0
            parent := none
            name := ""
            killed := false
            state := PState.UNUSED })
        (p.kstack.toList)
    | none => WaitStep.sleeps
  | none =>
    if havekids = false ∨ curKilled = true then WaitStep.ret (-1) tbl []
    else WaitStep.sleeps

/-- Boot-time table for the C3 scenario: slot 0 runs the parent (pid 1),
slot 1 is an UNUSED boot-zeroed slot (all fields zero / null). -/
def forkTbl0 : List Proc :=
  [⟨PState.RUNNING, 1, none, false, some 50, some 60, 4096, "init"⟩,
   ⟨PState.UNUSED, 0, none, false, none, none, 0, ""⟩]

/-- `fork` from slot 0 into slot 1 (kernel stack page 100, copied page
directory page 200). -/
def forkRes : Nat × List Proc := fork_mangled forkTbl0 0 1 100 200

/-- The table after the child (slot 1) exits, with slot 0 as init. -/
def exitTbl : List Proc := exit_mangled forkRes.2 1 0

/-- A table in which slot 1 is a ZOMBIE child correctly parented to
slot 0, as the claim assumes at the point `wait` runs. -/
def zombieTbl : List Proc :=
  [⟨PState.RUNNING, 1, none, false, some 50, some 60, 4096, "init"⟩,
   ⟨PState.ZOMBIE, 7, some 0, false, some 100, some 200, 4096, "child"⟩]

/-- `zombieTbl` after the reclaim branch of `wait`: the slot is UNUSED
with `pid`, `parent`, `name`, `killed` cleared, but `kstack` and `pgdir`
keep their stale values because `p->kstack = 0;` and `freevm(p->pgdir);`
are absent from src/proc.c. -/
def zombieTblAfter : List Proc :=
  [⟨PState.RUNNING, 1, none, false, some 50, some 60, 4096, "init"⟩,
   ⟨PState.UNUSED, 0, none, false, some 100, some 200, 4096, ""⟩]

/-- C3 (divergence): in src/proc.c as it stands, (i) `fork` leaves the
child's `parent` field null and returns the stale pid 0, so after the
child exits the parent's `wait` finds no children and returns -1 instead
of the child's pid; and (ii) even on a correctly parented ZOMBIE child the
reclaim branch of `wait` frees only the kernel-stack page — `freevm` of
the child's page directory is never called, so the page tables and frames
are not reclaimed. -/
theorem fork_exit_wait_code_bug :
    ((forkRes.2.get? 1).map Proc.parent = some none
      ∧ forkRes.1 = 0
      ∧ wait_mangled exitTbl 0 false = WaitStep.ret (-1) exitTbl [])
  ∧ (wait_mangled zombieTbl 0 false = WaitStep.ret 7 zombieTblAfter [100]
      ∧ (zombieTblAfter.get? 1).map Proc.pgdir = some (some 200)) := by
  decide

/-! ## Page tables (src/vm.c)

Modelled from the spec for the constants: mmu.h is not under src/; the
spec (§3) fixes a two-level table, 1024 × 1024 × 4 KiB pages, so the
page-directory index `PDX` is bits 31..22 of the virtual address, the
page-table index `PTX` is bits 21..12, `PGROUNDDOWN` clears the low 12
bits, and `PTE_P` is the present bit (bit 0).

A `PTState` is a page directory `pde` (directory index ↦ the page-table
page installed there, when the PDE is present), the contents `pt` of every
page-table page (page id ↦ index ↦ PTE value) and the `supply` of free
pages `kalloc` can still hand out for new page tables (`kalloc` returns 0
when it is empty). -/

def PDX (va : Nat) : Nat := (va / 2 ^ 22) % 1024

def PTX (va : Nat) : Nat := (va / 2 ^ 12) % 1024

def PGROUNDDOWN (a : Nat) : Nat := a - a % PGSIZE

def PTE_P : Nat := 1

structure PTState where
  pde : Nat → Option Nat
  pt : Nat → Nat → Nat
  supply : List Nat

/-- `walkpgdir(pgdir, va, 1)` from src/vm.c (as `mappages` calls it):
follow the PDE of `va`; when it is absent, allocate a page-table page
(fail, returning 0, when `kalloc` fails), `memset` it to zero and install
it with `PTE_P`.  On success return the state and the page-table page `t`
holding the PTE `&pgtab[PTX(va)]`. -/
def walkpgdir (st : PTState) (va : Nat) : Option (PTState × Nat) :=
  match st.pde (PDX va) with
  | some t => some (st, t)
  | none =>
    match st.supply with
    | [] => none
    | t :: rest =>
      some ({ pde := Function.update st.pde (PDX va) (some t)
              pt := Function.update st.pt t (fun _ => 0)
              supply := rest }, t)

/-- Write `*pte = v` at the PTE of index `idx` in page-table page `t`. -/
def setpte (st : PTState) (t idx v : Nat) : PTState :=
  { st with pt := Function.update st.pt t (Function.update (st.pt t) idx v) }

inductive MapResult where
  | panics : PTState → MapResult
  | fail : PTState → MapResult
  | ok : PTState → MapResult

/-- The state carried by a `mappages` outcome. -/
def MapResult.resState : MapResult → PTState
  | panics st => st
  | fail st => st
  | ok st => st

/-- The loop of `mappages` (src/vm.c) over `count + 1` pages starting at
the page-aligned address `a`, mapping physical address `pa` onwards: walk
(allocating; on failure return -1), `panic("remap")` when the PTE already
has `PTE_P`, else `*pte = pa | perm | PTE_P`; stop after the page
`a == last`, else advance `a` and `pa` by `PGSIZE`. -/
def mappagesGo (perm : Nat) : Nat → Nat → Nat → PTState → MapResult
  | 0, a, pa, st =>
    match walkpgdir st a with
    | none => MapResult.fail st
    | some (st2, t) =>
      if st2.pt t (PTX a) &&& PTE_P ≠ 0 then MapResult.panics st2
      else MapResult.ok (setpte st2 t (PTX a) (pa ||| perm ||| PTE_P))
  | count + 1, a, pa, st =>
    match walkpgdir st a with
    | none => MapResult.fail st
    | some (st2, t) =>
      if st2.pt t (PTX a) &&& PTE_P ≠ 0 then MapResult.panics st2
      else mappagesGo perm count (a + PGSIZE) (pa + PGSIZE)
        (setpte st2 t (PTX a) (pa ||| perm ||| PTE_P))

/-- `mappages(pgdir, va, size, pa, perm)` from src/vm.c:
`a = PGROUNDDOWN(va)`, `last = PGROUNDDOWN(va + size - 1)`, then the loop
above over the `(last - a)/PGSIZE + 1` pages of the range. -/
def mappages (st : PTState) (va size pa perm : Nat) : MapResult :=
  mappagesGo perm
    ((PGROUNDDOWN (va + size - 1) - PGROUNDDOWN va) / PGSIZE)
    (PGROUNDDOWN va) pa st

/-- The PTE reached by translating `va` (0 — in particular not present —
when the PDE is absent). -/
def pte_at (st : PTState) (va : Nat) : Nat :=
  match st.pde (PDX va) with
  | some t => st.pt t (PTX va)
  | none => 0

/-- Well-formedness of the page-table state: the free pages are distinct
and none of them is already installed as a page table, and no page serves
as the page table of two directory slots. -/
def wfPT (st : PTState) : Prop :=
  st.supply.Nodup
  ∧ (∀ t ∈ st.supply, ∀ i, st.pde i ≠ some t)
  ∧ (∀ i j t, st.pde i = some t → st.pde j = some t → i = j)

/-- The `i`-th page of the range `mappages` maps for `(va, size)`. -/
def pageOf (va i : Nat) : Nat := PGROUNDDOWN va + i * PGSIZE

/-- Index of the last page of the range (the loop runs `pageCount + 1`
pages). -/
def pageCount (va size : Nat) : Nat :=
  (PGROUNDDOWN (va + size - 1) - PGROUNDDOWN va) / PGSIZE

lemma and_PTE_P_eq_mod (x : Nat) : x &&& PTE_P = x % 2 := by
  show x &&& 1 = x % 2
  exact Nat.and_one_is_mod x

/-- A PTE written as `pa | perm | PTE_P` has the present bit set. -/
lemma lor_PTE_P_present (x : Nat) : (x ||| PTE_P) &&& PTE_P ≠ 0 := by
  have hb : (x ||| 1).testBit 0 = true := by
    rw [Nat.testBit_lor]
    simp
  rw [Nat.testBit_zero] at hb
  have h1 : (x ||| 1) % 2 = 1 := of_decide_eq_true hb
  have h2 : (x ||| PTE_P) &&& PTE_P = (x ||| 1) % 2 := by
    show (x ||| 1) &&& 1 = (x ||| 1) % 2
    exact Nat.and_one_is_mod _
  omega

/-- Below `2 ^ 32`, the pair `(PDX, PTX)` determines the page number. -/
lemma pdx_ptx_page (va : Nat) (hva : va < 2 ^ 32) :
    va / PGSIZE = PDX va * 1024 + PTX va := by
  unfold PDX PTX PGSIZE
  have h1 : va / 2 ^ 22 < 1024 := by omega
  rw [Nat.mod_eq_of_lt h1]
  have h2 : va / 2 ^ 12 / 1024 = va / 2 ^ 22 := by
    rw [Nat.div_div_eq_div_mul]
    norm_num
  have h3 := Nat.div_add_mod (va / 2 ^ 12) 1024
  omega

/-- Distinct pages below `2 ^ 32` occupy distinct PTE cells. -/
lemma cell_ne_of_page_ne (va vb : Nat) (hva : va < 2 ^ 32) (hvb : vb < 2 ^ 32)
    (hne : va / PGSIZE ≠ vb / PGSIZE) : PDX va ≠ PDX vb ∨ PTX va ≠ PTX vb := by
  by_contra hcon
  push_neg at hcon
  apply hne
  rw [pdx_ptx_page va hva, pdx_ptx_page vb hvb, hcon.1, hcon.2]

/-- `walkpgdir` fails only with an absent PDE and an empty supply. -/
lemma walkpgdir_none_iff (st : PTState) (va : Nat) :
    walkpgdir st va = none ↔ st.pde (PDX va) = none ∧ st.supply = [] := by
  unfold walkpgdir
  match hd : st.pde (PDX va) with
  | some t => simp
  | none =>
    match hs : st.supply with
    | [] => simp
    | t :: rest => simp

/-- What a successful `walkpgdir` guarantees: well-formedness is kept, the
PDE of `va` now holds `t`, every translated PTE is unchanged (a freshly
installed table is zeroed and its slot was previously absent), and at most
one supply page is consumed. -/
lemma walkpgdir_some (st : PTState) (va : Nat) (st2 : PTState) (t : Nat)
    (hwf : wfPT st) (h : walkpgdir st va = some (st2, t)) :
    wfPT st2
  ∧ st2.pde (PDX va) = some t
  ∧ (∀ vb, pte_at st2 vb = pte_at st vb)
  ∧ st.supply.length ≤ st2.supply.length + 1
  ∧ st2.supply.length ≤ st.supply.length := by
  obtain ⟨hnd, hdisj, hinj⟩ := hwf
  unfold walkpgdir at h
  match hd : st.pde (PDX va) with
  | some t0 =>
    rw [hd] at h
    obtain ⟨h1, h2⟩ := Prod.mk.injEq .. ▸ Option.some.inj h
    subst h1
    subst h2
    exact ⟨⟨hnd, hdisj, hinj⟩, hd, fun vb => rfl, by omega, by omega⟩
  | none =>
    rw [hd] at h
    match hs : st.supply with
    | [] =>
      rw [hs] at h
      exact absurd h (by simp)
    | tf :: rest =>
      rw [hs] at h
      obtain ⟨h1, h2⟩ := Prod.mk.injEq .. ▸ Option.some.inj h
      subst h2
      have htf : tf ∉ rest := by
        rw [hs] at hnd
        exact (List.nodup_cons.mp hnd).1
      have hrest : rest.Nodup := by
        rw [hs] at hnd
        exact (List.nodup_cons.mp hnd).2
      have htfsup : tf ∈ st.supply := by rw [hs]; simp
      subst h1
      refine ⟨⟨hrest, ?_, ?_⟩, ?_, ?_, ?_, ?_⟩
      · -- supply pages still uninstalled
        intro u hu i
        show Function.update st.pde (PDX va) (some tf) i ≠ some u
        have husup : u ∈ st.supply := by rw [hs]; simp [hu]
        by_cases hi : i = PDX va
        · subst hi
          rw [Function.update_same]
          intro hcon
          have : tf = u := Option.some.inj hcon
          subst this
          exact htf hu
        · rw [Function.update_noteq hi]
          exact hdisj u husup i
      · -- still injective
        intro i j u hi hj
        have hi2 : Function.update st.pde (PDX va) (some tf) i = some u := hi
        have hj2 : Function.update st.pde (PDX va) (some tf) j = some u := hj
        by_cases hipd : i = PDX va
        · by_cases hjpd : j = PDX va
          · rw [hipd, hjpd]
          · subst hipd
            rw [Function.update_same] at hi2
            rw [Function.update_noteq hjpd] at hj2
            have : tf = u := Option.some.inj hi2
            subst this
            exact absurd hj2 (hdisj tf htfsup j)
        · by_cases hjpd : j = PDX va
          · subst hjpd
            rw [Function.update_same] at hj2
            rw [Function.update_noteq hipd] at hi2
            have : tf = u := Option.some.inj hj2
            subst this
            exact absurd hi2 (hdisj tf htfsup i)
          · rw [Function.update_noteq hipd] at hi2
            rw [Function.update_noteq hjpd] at hj2
            exact hinj i j u hi2 hj2
      · show Function.update st.pde (PDX va) (some tf) (PDX va) = some tf
        rw [Function.update_same]
      · -- every translated PTE unchanged
        intro vb
        unfold pte_at
        by_cases hb : PDX vb = PDX va
        · rw [hb]
          show (match Function.update st.pde (PDX va) (some tf) (PDX va) with
            | some u => Function.update st.pt tf (fun _ => 0) u (PTX vb)
            | none => 0) = (match st.pde (PDX va) with
            | some u => st.pt u (PTX vb)
            | none => 0)
          rw [Function.update_same, hd]
          simp
        · show (match Function.update st.pde (PDX va) (some tf) (PDX vb) with
            | some u => Function.update st.pt tf (fun _ => 0) u (PTX vb)
            | none => 0) = (match st.pde (PDX vb) with
            | some u => st.pt u (PTX vb)
            | none => 0)
          rw [Function.update_noteq hb]
          match hdb : st.pde (PDX vb) with
          | none => rfl
          | some u =>
            have hune : u ≠ tf := by
              intro hcon
              subst hcon
              exact hdisj u htfsup (PDX vb) hdb
            simp only []
            rw [Function.update_noteq hune]
      · show (tf :: rest).length ≤ rest.length + 1
        simp
      · show rest.length ≤ (tf :: rest).length
        simp

/-- `setpte` changes neither `pde` nor `supply`, so well-formedness is
kept. -/
lemma wf_setpte (st : PTState) (t idx v : Nat) (hwf : wfPT st) :
    wfPT (setpte st t idx v) := hwf

/-- Effect of `setpte` on translated PTEs when `t` is the table installed
at directory slot `D`: exactly the cell `(D, idx)` changes. -/
lemma pte_at_setpte (st : PTState) (t idx v D : Nat) (hwf : wfPT st)
    (hd : st.pde D = some t) (vb : Nat) :
    pte_at (setpte st t idx v) vb =
      if PDX vb = D ∧ PTX vb = idx then v else pte_at st vb := by
  obtain ⟨hnd, hdisj, hinj⟩ := hwf
  by_cases h1 : PDX vb = D
  · have hdb : st.pde (PDX vb) = some t := by rw [h1]; exact hd
    have hL : pte_at (setpte st t idx v) vb =
        Function.update (st.pt t) idx v (PTX vb) := by
      show (match (setpte st t idx v).pde (PDX vb) with
        | some u => (setpte st t idx v).pt u (PTX vb)
        | none => 0) = Function.update (st.pt t) idx v (PTX vb)
      show (match st.pde (PDX vb) with
        | some u => Function.update st.pt t (Function.update (st.pt t) idx v) u (PTX vb)
        | none => 0) = Function.update (st.pt t) idx v (PTX vb)
      rw [hdb]
      show Function.update st.pt t (Function.update (st.pt t) idx v) t (PTX vb) =
        Function.update (st.pt t) idx v (PTX vb)
      rw [Function.update_same]
    rw [hL]
    by_cases h2 : PTX vb = idx
    · rw [if_pos ⟨h1, h2⟩, h2, Function.update_same]
    · rw [Function.update_noteq h2, if_neg (by rintro ⟨_, hc⟩; exact h2 hc)]
      show st.pt t (PTX vb) = pte_at st vb
      unfold pte_at
      rw [hdb]
  · rw [if_neg (by rintro ⟨hc, _⟩; exact h1 hc)]
    show (match st.pde (PDX vb) with
      | some u => Function.update st.pt t (Function.update (st.pt t) idx v) u (PTX vb)
      | none => 0) = pte_at st vb
    unfold pte_at
    match hdb : st.pde (PDX vb) with
    | none => rfl
    | some u =>
      have hune : u ≠ t := by
        intro hcon
        subst hcon
        exact h1 (hinj (PDX vb) D u hdb hd)
      show Function.update st.pt t (Function.update (st.pt t) idx v) u (PTX vb) =
        st.pt u (PTX vb)
      rw [Function.update_noteq hune]

lemma page_lt_bound (a i count : Nat) (hi : i ≤ count)
    (hbound : a + count * PGSIZE + PGSIZE ≤ 2 ^ 32) : a + i * PGSIZE < 2 ^ 32 := by
  unfold PGSIZE at *
  omega

lemma page_div_ne (a i j : Nat) (hal : a % PGSIZE = 0) (hij : i ≠ j) :
    (a + i * PGSIZE) / PGSIZE ≠ (a + j * PGSIZE) / PGSIZE := by
  unfold PGSIZE at *
  omega

/-- Distinct pages of one `mappages` range occupy distinct PTE cells. -/
lemma cell_ne_pages (a i j count : Nat) (hal : a % PGSIZE = 0) (hij : i ≠ j)
    (hbound : a + count * PGSIZE + PGSIZE ≤ 2 ^ 32) (hi : i ≤ count) (hj : j ≤ count) :
    PDX (a + i * PGSIZE) ≠ PDX (a + j * PGSIZE)
  ∨ PTX (a + i * PGSIZE) ≠ PTX (a + j * PGSIZE) :=
  cell_ne_of_page_ne _ _ (page_lt_bound a i count hi hbound)
    (page_lt_bound a j count hj hbound) (page_div_ne a i j hal hij)

/-- Loop invariant of `mappages` over the `count + 1` pages from the
aligned address `a`: with enough free pages for the walks, (i) when no PTE
of the range is present the loop completes and installs
`pa + i*PGSIZE | perm | PTE_P` at every page; (ii) when some PTE of the
range is present the loop panics; (iii) a PTE that is present at entry is
never overwritten, whatever the outcome. -/
lemma mappagesGo_spec (perm : Nat) :
    ∀ count a pa st, wfPT st → a % PGSIZE = 0 →
      a + count * PGSIZE + PGSIZE ≤ 2 ^ 32 →
      count + 1 ≤ st.supply.length →
      (((∀ i, i ≤ count → pte_at st (a + i * PGSIZE) &&& PTE_P = 0) →
         ∃ st3, mappagesGo perm count a pa st = MapResult.ok st3 ∧
           ∀ i, i ≤ count →
             pte_at st3 (a + i * PGSIZE) = ((pa + i * PGSIZE) ||| perm ||| PTE_P))
      ∧ ((∃ i, i ≤ count ∧ pte_at st (a + i * PGSIZE) &&& PTE_P ≠ 0) →
         ∃ st3, mappagesGo perm count a pa st = MapResult.panics st3)
      ∧ (∀ vb, pte_at st vb &&& PTE_P ≠ 0 →
         pte_at (MapResult.resState (mappagesGo perm count a pa st)) vb = pte_at st vb)) := by
  intro count
  induction count with
  | zero =>
    intro a pa st hwf hal hbound hsup
    match hw : walkpgdir st a with
    | none =>
      rw [walkpgdir_none_iff] at hw
      rw [hw.2] at hsup
      simp at hsup
    | some (st2, t) =>
      obtain ⟨hwf2, hpde2, hpres2, hlen1, hlen2⟩ := walkpgdir_some st a st2 t hwf hw
      have hpte2a : st2.pt t (PTX a) = pte_at st a := by
        have h1 : pte_at st2 a = st2.pt t (PTX a) := by
          unfold pte_at
          rw [hpde2]
        rw [← h1]
        exact hpres2 a
      refine ⟨?_, ?_, ?_⟩
      · intro hnone
        have h0 : pte_at st a &&& PTE_P = 0 := by
          have := hnone 0 (Nat.le_refl 0)
          simpa using this
        have htest : ¬ st2.pt t (PTX a) &&& PTE_P ≠ 0 := by
          rw [hpte2a, h0]
          simp
        refine ⟨setpte st2 t (PTX a) (pa ||| perm ||| PTE_P), ?_, ?_⟩
        · simp only [mappagesGo, hw]
          rw [if_neg htest]
        · intro i hi
          have hi0 : i = 0 := by omega
          subst hi0
          have hv := pte_at_setpte st2 t (PTX a) (pa ||| perm ||| PTE_P) (PDX a)
            hwf2 hpde2 a
          rw [if_pos ⟨rfl, rfl⟩] at hv
          simpa using hv
      · rintro ⟨i, hi, hpres⟩
        have hi0 : i = 0 := by omega
        subst hi0
        have hp0 : pte_at st a &&& PTE_P ≠ 0 := by simpa using hpres
        have htest : st2.pt t (PTX a) &&& PTE_P ≠ 0 := by
          rw [hpte2a]
          exact hp0
        refine ⟨st2, ?_⟩
        simp only [mappagesGo, hw]
        rw [if_pos htest]
      · intro vb hvb
        simp only [mappagesGo, hw]
        by_cases ht : st2.pt t (PTX a) &&& PTE_P ≠ 0
        · rw [if_pos ht]
          exact hpres2 vb
        · rw [if_neg ht]
          show pte_at (setpte st2 t (PTX a) (pa ||| perm ||| PTE_P)) vb = pte_at st vb
          rw [pte_at_setpte st2 t (PTX a) _ (PDX a) hwf2 hpde2 vb]
          have hcond : ¬ (PDX vb = PDX a ∧ PTX vb = PTX a) := by
            rintro ⟨hc1, hc2⟩
            have hv2 : pte_at st2 vb = st2.pt t (PTX a) := by
              unfold pte_at
              rw [hc1, hpde2, hc2]
            have hveq : pte_at st vb = pte_at st a := by
              rw [← hpres2 vb, hv2, hpte2a]
            rw [hveq] at hvb
            rw [hpte2a] at ht
            exact ht hvb
          rw [if_neg hcond]
          exact hpres2 vb
  | succ count ih =>
    intro a pa st hwf hal hbound hsup
    match hw : walkpgdir st a with
    | none =>
      rw [walkpgdir_none_iff] at hw
      rw [hw.2] at hsup
      simp at hsup
    | some (st2, t) =>
      obtain ⟨hwf2, hpde2, hpres2, hlen1, hlen2⟩ := walkpgdir_some st a st2 t hwf hw
      have hpte2a : st2.pt t (PTX a) = pte_at st a := by
        have h1 : pte_at st2 a = st2.pt t (PTX a) := by
          unfold pte_at
          rw [hpde2]
        rw [← h1]
        exact hpres2 a
      have hbound2 : (a + PGSIZE) + count * PGSIZE + PGSIZE ≤ 2 ^ 32 := by
        unfold PGSIZE at *
        omega
      have hal2 : (a + PGSIZE) % PGSIZE = 0 := by
        unfold PGSIZE at *
        omega
      have hstep : ∀ i : Nat, (a + PGSIZE) + i * PGSIZE = a + (i + 1) * PGSIZE := by
        intro i
        ring
      have hstep2 : ∀ i : Nat, (pa + PGSIZE) + i * PGSIZE = pa + (i + 1) * PGSIZE := by
        intro i
        ring
      -- the PTE cell of page `i + 1` differs from page 0's cell
      have hcellne : ∀ i, i ≤ count →
          ¬ (PDX (a + (i + 1) * PGSIZE) = PDX a ∧ PTX (a + (i + 1) * PGSIZE) = PTX a) := by
        intro i hi hcon
        have h2 := cell_ne_pages a (i + 1) 0 (count + 1) hal (by omega) hbound
          (by omega) (by omega)
        simp only [Nat.zero_mul, Nat.add_zero] at h2
        rcases h2 with h2 | h2
        · exact h2 hcon.1
        · exact h2 hcon.2
      by_cases ht : st2.pt t (PTX a) &&& PTE_P ≠ 0
      · -- page 0 is already present: panic
        refine ⟨?_, ?_, ?_⟩
        · intro hnone
          exfalso
          have h0 : pte_at st a &&& PTE_P = 0 := by
            have := hnone 0 (by omega)
            simpa using this
          rw [hpte2a, h0] at ht
          exact ht rfl
        · intro _
          refine ⟨st2, ?_⟩
          simp only [mappagesGo, hw]
          rw [if_pos ht]
        · intro vb hvb
          simp only [mappagesGo, hw]
          rw [if_pos ht]
          exact hpres2 vb
      · -- page 0 is not present: write it and continue
        set v0 : Nat := pa ||| perm ||| PTE_P with hv0
        set st3 : PTState := setpte st2 t (PTX a) v0 with hst3
        have hwf3 : wfPT st3 := wf_setpte st2 t (PTX a) v0 hwf2
        have hsup3 : count + 1 ≤ st3.supply.length := by
          have : st3.supply.length = st2.supply.length := rfl
          omega
        have hsetvb := fun vb => pte_at_setpte st2 t (PTX a) v0 (PDX a) hwf2 hpde2 vb
        have hpte3a : pte_at st3 a = v0 := by
          rw [hsetvb a, if_pos ⟨rfl, rfl⟩]
        -- pages 1..count+1 keep their entry PTE value in st3
        have hkeep : ∀ i, i ≤ count →
            pte_at st3 (a + (i + 1) * PGSIZE) = pte_at st (a + (i + 1) * PGSIZE) := by
          intro i hi
          rw [hsetvb _, if_neg (hcellne i hi)]
          exact hpres2 _
        -- a PTE present at entry keeps its value in st3
        have hkeeppres : ∀ vb, pte_at st vb &&& PTE_P ≠ 0 → pte_at st3 vb = pte_at st vb := by
          intro vb hvb
          rw [hsetvb vb]
          have hcond : ¬ (PDX vb = PDX a ∧ PTX vb = PTX a) := by
            rintro ⟨hc1, hc2⟩
            have hv2 : pte_at st2 vb = st2.pt t (PTX a) := by
              unfold pte_at
              rw [hc1, hpde2, hc2]
            have hveq : pte_at st vb = pte_at st a := by
              rw [← hpres2 vb, hv2, hpte2a]
            rw [hveq] at hvb
            rw [hpte2a] at ht
            exact ht hvb
          rw [if_neg hcond]
          exact hpres2 vb
        obtain ⟨ih1, ih2, ih3⟩ := ih (a + PGSIZE) (pa + PGSIZE) st3 hwf3 hal2 hbound2 hsup3
        refine ⟨?_, ?_, ?_⟩
        · intro hnone
          have hnone3 : ∀ i, i ≤ count →
              pte_at st3 ((a + PGSIZE) + i * PGSIZE) &&& PTE_P = 0 := by
            intro i hi
            rw [hstep i, hkeep i hi]
            exact hnone (i + 1) (by omega)
          obtain ⟨st4, hrun, hmap⟩ := ih1 hnone3
          refine ⟨st4, ?_, ?_⟩
          · simp only [mappagesGo, hw]
            rw [if_neg ht]
            exact hrun
          · intro i hi
            match i with
            | 0 =>
              have hpresv0 : pte_at st3 a &&& PTE_P ≠ 0 := by
                rw [hpte3a]
                exact lor_PTE_P_present (pa ||| perm)
              have h4 := ih3 a hpresv0
              rw [hrun] at h4
              show pte_at st4 (a + 0 * PGSIZE) = (pa + 0 * PGSIZE) ||| perm ||| PTE_P
              simp only [Nat.zero_mul, Nat.add_zero]
              show pte_at st4 a = v0
              rw [show pte_at st4 a = pte_at (MapResult.resState (MapResult.ok st4)) a from rfl]
              rw [h4, hpte3a]
            | i + 1 =>
              have hm := hmap i (by omega)
              rw [hstep i, hstep2 i] at hm
              exact hm
        · rintro ⟨i, hi, hpres⟩
          match i with
          | 0 =>
            exfalso
            have hp0 : pte_at st a &&& PTE_P ≠ 0 := by simpa using hpres
            rw [hpte2a] at ht
            exact ht hp0
          | i + 1 =>
            have hpres3 : pte_at st3 ((a + PGSIZE) + i * PGSIZE) &&& PTE_P ≠ 0 := by
              rw [hstep i, hkeep i (by omega)]
              exact hpres
            obtain ⟨st4, hrun⟩ := ih2 ⟨i, by omega, hpres3⟩
            refine ⟨st4, ?_⟩
            simp only [mappagesGo, hw]
            rw [if_neg ht]
            exact hrun
        · intro vb hvb
          have h3 := hkeeppres vb hvb
          have hvb3 : pte_at st3 vb &&& PTE_P ≠ 0 := by
            rw [h3]
            exact hvb
          have h4 := ih3 vb hvb3
          simp only [mappagesGo, hw]
          rw [if_neg ht]
          rw [h4, h3]

/-- C7: with enough free pages for the page-table walks, `mappages` either
maps every page of the range into a previously non-present PTE (writing
`pa + i*PGSIZE | perm | PTE_P`) or panics ("remap") because some PTE of
the range is already present; under the precondition that no PTE of the
range is present the panic branch is unreachable, and in every outcome a
PTE that was present at entry is never overwritten. -/
theorem mappages_remap_safety (st : PTState) (va size pa perm : Nat)
    (hwf : wfPT st) (hsz : 0 < size) (hbound : va + size ≤ 2 ^ 32)
    (hsupply : pageCount va size + 1 ≤ st.supply.length) :
    ((∀ i, i ≤ pageCount va size → pte_at st (pageOf va i) &&& PTE_P = 0) →
       ∃ st3, mappages st va size pa perm = MapResult.ok st3 ∧
         ∀ i, i ≤ pageCount va size →
           pte_at st3 (pageOf va i) = ((pa + i * PGSIZE) ||| perm ||| PTE_P))
  ∧ ((∃ i, i ≤ pageCount va size ∧ pte_at st (pageOf va i) &&& PTE_P ≠ 0) →
       ∃ st3, mappages st va size pa perm = MapResult.panics st3)
  ∧ (∀ vb, pte_at st vb &&& PTE_P ≠ 0 →
       pte_at (MapResult.resState (mappages st va size pa perm)) vb = pte_at st vb) := by
  have hal : PGROUNDDOWN va % PGSIZE = 0 := by
    unfold PGROUNDDOWN PGSIZE
    omega
  have hbig : PGROUNDDOWN va + pageCount va size * PGSIZE + PGSIZE ≤ 2 ^ 32 := by
    unfold pageCount PGROUNDDOWN PGSIZE at *
    omega
  exact mappagesGo_spec perm (pageCount va size) (PGROUNDDOWN va) pa st hwf hal
    hbig hsupply

/-- An empty page directory with one free page for a page table. -/
def mapWitnessState : PTState :=
  { pde := fun _ => none, pt := fun _ _ => 0, supply := [5] }

/-- Witness for C7: mapping the one-page range `[0, 4096)` to physical
8192 in an empty directory succeeds and installs `8192 | 2 | PTE_P`. -/
theorem mappages_remap_safety_witness :
    pte_at (MapResult.resState (mappages mapWitnessState 0 4096 8192 2)) 0 =
      (8192 ||| 2 ||| PTE_P) := by
  have hwf : wfPT mapWitnessState := by
    refine ⟨List.nodup_singleton 5, ?_, ?_⟩
    · intro t ht i
      simp [mapWitnessState]
    · intro i j u hi hj
      simp only [mapWitnessState] at hi
      exact absurd hi (by simp)
  have h := (mappages_remap_safety mapWitnessState 0 4096 8192 2 hwf (by omega)
    (by norm_num) (by decide)).1
  obtain ⟨st3, hrun, hmap⟩ := h (fun i hi => by
    show (0 : Nat) &&& PTE_P = 0
    decide)
  have hm := hmap 0 (by omega)
  rw [hrun]
  show pte_at st3 0 = (8192 ||| 2 ||| PTE_P)
  have hpage : pageOf 0 0 = 0 := by decide
  rw [hpage] at hm
  simpa using hm
